import Mathlib

/-!
# Verification of the TongueTwisterX similarity scorer and session state machine

Shallow embedding of the repository `Thompytime/tongue-twister-x`.

JavaScript strings are modelled as lists of UTF-16 code units (`List Nat`);
JavaScript numbers are modelled as exact rationals (`ℚ`) — every concrete
numeric fact proved below is exact in IEEE double arithmetic as well
(in particular `0.7*1 + 0.3*1 = 1` holds in IEEE doubles, the exact sum
`1 - 2⁻⁵⁴` being a tie that rounds to even, i.e. to `1`).

The repository contains two variants of the scoring helpers (the two
documents concatenated in `src/src/TongueTwisterX.js`): namespace `V1`
embeds the first (NFC normalization, fixed punctuation class), namespace
`V2` the second (NFKD, combining-mark strip, Unicode letter/number class).
Their `levenshtein` functions are textually identical, so a single
top-level `levenshtein` embeds both.

Platform Unicode operations (`toLowerCase`, `String.prototype.normalize`,
the regex classes `\p{L}`, `\p{N}`, `\s`) are modelled per code unit on the
Basic Latin and Latin-1 repertoire, plus the combining diacritical marks
block U+0300–U+036F, the characters of V1's punctuation class, and the
Greek letters Υ/υ/ϒ (U+03A5, U+03C5, U+03D2) — the latter because
U+03D2 exhibits the program's non-idempotence: it has no lowercase
mapping, yet NFKD decompatibilizes it to the uppercase Υ, which a second
pass then lowercases.  Outside the modelled repertoire the model maps a
code unit to itself.  All concrete inputs appearing in the theorems below
lie inside the modelled repertoire.
-/

namespace TTX

/-- Models `\s` of JavaScript regexes on the modelled repertoire:
tab, LF, VT, FF, CR, space and NBSP (the only `\s` characters below U+0370). -/
def isSpaceB (c : Nat) : Bool :=
  c = 9 || c = 10 || c = 11 || c = 12 || c = 13 || c = 32 || c = 160

/-- Models `String.prototype.toLowerCase` per code unit: ASCII `A`–`Z` and
the Latin-1 uppercase letters `À`–`Þ` (excluding `×`) map down by 32, and
GREEK CAPITAL LETTER UPSILON (U+03A5) maps to its lowercase υ (U+03C5);
everything else in the modelled repertoire is fixed — in particular
GREEK UPSILON WITH HOOK SYMBOL (U+03D2) has no lowercase mapping. -/
def toLowerCU (c : Nat) : Nat :=
  if 65 ≤ c ∧ c ≤ 90 then c + 32
  else if 192 ≤ c ∧ c ≤ 222 ∧ c ≠ 215 then c + 32
  else if c = 0x3A5 then 0x3C5
  else c

/-- Models the combining-mark class `[̀-ͯ]` of V2's normalizer. -/
def isCombMarkB (c : Nat) : Bool :=
  768 ≤ c && c ≤ 879

/-- Models `\p{L}` ∪ `\p{N}` on the modelled repertoire: ASCII digits and
letters, the Latin-1 letters (ª, µ, º, À–Ö, Ø–ö, ø–ÿ), the Latin-1 number
characters (¹²³ and the vulgar fractions), µ's decomposition target
GREEK SMALL LETTER MU (U+03BC), and the Greek letters Υ, υ, ϒ
(U+03A5, U+03C5, U+03D2), all of which are `\p{L}`. -/
def isWordCharB (c : Nat) : Bool :=
  (48 ≤ c && c ≤ 57) || (65 ≤ c && c ≤ 90) || (97 ≤ c && c ≤ 122) ||
  c = 170 || c = 181 || c = 186 ||
  c = 178 || c = 179 || c = 185 || c = 188 || c = 189 || c = 190 ||
  (192 ≤ c && c ≤ 214) || (216 ≤ c && c ≤ 246) || (248 ≤ c && c ≤ 255) ||
  c = 956 || c = 933 || c = 965 || c = 978

/-- Models `String.prototype.normalize("NFKD")` per code unit on the
modelled repertoire: the Latin-1 characters with canonical decompositions
decompose into base letter plus combining mark, and the compatibility
characters (ª, º, µ, ¹²³, vulgar fractions, and GREEK UPSILON WITH HOOK
SYMBOL U+03D2, whose compatibility decomposition is the *uppercase*
Υ U+03A5) into their compatibility decompositions; every other code unit
is fixed.  (Real NFKD acts on whole strings; on the modelled repertoire,
where marks never need reordering, the per-unit model agrees with it.) -/
def nfkdCU (c : Nat) : List Nat :=
  if c = 0xE0 then [0x61, 0x300] else if c = 0xE1 then [0x61, 0x301]
  else if c = 0xE2 then [0x61, 0x302] else if c = 0xE3 then [0x61, 0x303]
  else if c = 0xE4 then [0x61, 0x308] else if c = 0xE5 then [0x61, 0x30A]
  else if c = 0xE7 then [0x63, 0x327]
  else if c = 0xE8 then [0x65, 0x300] else if c = 0xE9 then [0x65, 0x301]
  else if c = 0xEA then [0x65, 0x302] else if c = 0xEB then [0x65, 0x308]
  else if c = 0xEC then [0x69, 0x300] else if c = 0xED then [0x69, 0x301]
  else if c = 0xEE then [0x69, 0x302] else if c = 0xEF then [0x69, 0x308]
  else if c = 0xF1 then [0x6E, 0x303]
  else if c = 0xF2 then [0x6F, 0x300] else if c = 0xF3 then [0x6F, 0x301]
  else if c = 0xF4 then [0x6F, 0x302] else if c = 0xF5 then [0x6F, 0x303]
  else if c = 0xF6 then [0x6F, 0x308]
  else if c = 0xF9 then [0x75, 0x300] else if c = 0xFA then [0x75, 0x301]
  else if c = 0xFB then [0x75, 0x302] else if c = 0xFC then [0x75, 0x308]
  else if c = 0xFD then [0x79, 0x301] else if c = 0xFF then [0x79, 0x308]
  else if c = 0xAA then [0x61] else if c = 0xBA then [0x6F]
  else if c = 0xB5 then [0x3BC]
  else if c = 0xB9 then [0x31] else if c = 0xB2 then [0x32]
  else if c = 0xB3 then [0x33]
  else if c = 0xBC then [0x31, 0x2044, 0x34]
  else if c = 0xBD then [0x31, 0x2044, 0x32]
  else if c = 0xBE then [0x33, 0x2044, 0x34]
  else if c = 0x3D2 then [0x3A5]
  else [c]

/-- Models Unicode canonical composition of a base/mark pair on the
modelled repertoire (the inverse of the canonical part of `nfkdCU`;
compatibility decompositions do not recompose). -/
def composeCU (b m : Nat) : Option Nat :=
  if b = 0x61 then
    (if m = 0x300 then some 0xE0 else if m = 0x301 then some 0xE1
     else if m = 0x302 then some 0xE2 else if m = 0x303 then some 0xE3
     else if m = 0x308 then some 0xE4 else if m = 0x30A then some 0xE5
     else none)
  else if b = 0x63 then (if m = 0x327 then some 0xE7 else none)
  else if b = 0x65 then
    (if m = 0x300 then some 0xE8 else if m = 0x301 then some 0xE9
     else if m = 0x302 then some 0xEA else if m = 0x308 then some 0xEB
     else none)
  else if b = 0x69 then
    (if m = 0x300 then some 0xEC else if m = 0x301 then some 0xED
     else if m = 0x302 then some 0xEE else if m = 0x308 then some 0xEF
     else none)
  else if b = 0x6E then (if m = 0x303 then some 0xF1 else none)
  else if b = 0x6F then
    (if m = 0x300 then some 0xF2 else if m = 0x301 then some 0xF3
     else if m = 0x302 then some 0xF4 else if m = 0x303 then some 0xF5
     else if m = 0x308 then some 0xF6 else none)
  else if b = 0x75 then
    (if m = 0x300 then some 0xF9 else if m = 0x301 then some 0xFA
     else if m = 0x302 then some 0xFB else if m = 0x308 then some 0xFC
     else none)
  else if b = 0x79 then
    (if m = 0x301 then some 0xFD else if m = 0x308 then some 0xFF
     else none)
  else none

/-- Models `String.prototype.normalize("NFC")` on the modelled repertoire:
scan left to right, composing an adjacent base/mark pair where a canonical
composition exists.  (On the modelled repertoire a composed character never
composes further, so the single scan is exact.) -/
def nfcScan : List Nat → List Nat
  | [] => []
  | [c] => [c]
  | b :: m :: rest =>
    match composeCU b m with
    | some p => p :: nfcScan rest
    | none => b :: nfcScan (m :: rest)

/-- Models V1's punctuation class ``[.,!?;:()"“”'’\-—…]``. -/
def isPunctV1 (c : Nat) : Bool :=
  c = 0x2E || c = 0x2C || c = 0x21 || c = 0x3F || c = 0x3B || c = 0x3A ||
  c = 0x28 || c = 0x29 || c = 0x22 || c = 0x201C || c = 0x201D ||
  c = 0x27 || c = 0x2019 || c = 0x2D || c = 0x2014 || c = 0x2026

/-- Models `.replace(/\s+/g, " ")`: every maximal run of whitespace
becomes a single space (U+0020). -/
def collapseWs : List Nat → List Nat
  | [] => []
  | [c] => [if isSpaceB c then 32 else c]
  | c :: d :: rest =>
    if isSpaceB c && isSpaceB d then collapseWs (d :: rest)
    else (if isSpaceB c then 32 else c) :: collapseWs (d :: rest)

/-- Drops trailing whitespace (the right half of `String.prototype.trim`). -/
def trimRight : List Nat → List Nat
  | [] => []
  | c :: cs =>
    match trimRight cs with
    | [] => if isSpaceB c then [] else [c]
    | r => c :: r

/-- Models `String.prototype.trim`. -/
def trimWs (l : List Nat) : List Nat :=
  trimRight (l.dropWhile isSpaceB)

/-- Models `String.prototype.split(" ")` (separator a single space):
always returns at least one (possibly empty) field. -/
def splitSp : List Nat → List (List Nat)
  | [] => [[]]
  | c :: cs =>
    if c = 32 then [] :: splitSp cs
    else
      match splitSp cs with
      | [] => [[c]]
      | w :: ws => (c :: w) :: ws

/-- The substitution cost `a[i-1] === b[j-1] ? 0 : 1` of the source. -/
def costCU (x y : Nat) : Nat := if x = y then 0 else 1

/-- One step of the inner `for (let j …)` loop of `levenshtein`: given the
remaining characters of `b`, the remaining entries `dp[i-1][j..]` of the
previous row, the diagonal `dp[i-1][j-1]` and the entry `dp[i][j-1]` just
computed, produce the entries `dp[i][j..]` of the current row. -/
def rowStep (ca : Nat) : List Nat → List Nat → Nat → Nat → List Nat
  | [], _, _, _ => []
  | _ :: _, [], _, _ => []
  | bj :: brest, pj :: prest, diag, cur =>
    (min (pj + 1) (min (cur + 1) (diag + costCU ca bj))) ::
      rowStep ca brest prest pj
        (min (pj + 1) (min (cur + 1) (diag + costCU ca bj)))

/-- One iteration of the outer `for (let i …)` loop of `levenshtein`:
computes row `dp[i]` from row `dp[i-1]` (`dp[i][0] = i = dp[i-1][0] + 1`). -/
def nextRow (ca : Nat) (b prev : List Nat) : List Nat :=
  match prev with
  | [] => []
  | p0 :: prest => (p0 + 1) :: rowStep ca b prest p0 (p0 + 1)

/-- The source's `levenshtein(a, b)` (identical in both variants): the
dynamic program over the `(m+1) × (n+1)` table, row by row, starting from
`dp[0] = [0, 1, …, n]` and returning `dp[m][n]`. -/
def levenshtein (a b : List Nat) : Nat :=
  (a.foldl (fun prev ca => nextRow ca b prev) (List.range (b.length + 1))).getLast?.getD 0

/-- The textbook recurrence for the unit-cost edit distance, used as the
specification that the dynamic program is proved to satisfy. -/
def levRec : List Nat → List Nat → Nat
  | [], b => b.length
  | a :: as, [] => (a :: as).length
  | x :: xs, y :: ys =>
    min (levRec xs (y :: ys) + 1)
      (min (levRec (x :: xs) ys + 1) (levRec xs ys + costCU x y))
termination_by a b => a.length + b.length
decreasing_by all_goals simp_wf <;> omega

/-! ## Edit-script characterization of the edit distance

`Step u v` holds when a single unit-cost edit (insert, delete or
substitute one element, at any position) turns `u` into `v`;
`Path u v n` when `n` such edits do.  These are the specification devices
for the claim that `levenshtein` computes the classic edit distance. -/

/-- One single-character edit: delete, insert or substitute anywhere. -/
inductive Step : List Nat → List Nat → Prop
  | del (x : Nat) (l : List Nat) : Step (x :: l) l
  | ins (x : Nat) (l : List Nat) : Step l (x :: l)
  | sub (x y : Nat) (l : List Nat) : Step (x :: l) (y :: l)
  | keep (c : Nat) {l l' : List Nat} : Step l l' → Step (c :: l) (c :: l')

/-- `Path u v n`: `v` is obtained from `u` by `n` single-character edits. -/
inductive Path : List Nat → List Nat → Nat → Prop
  | refl (l : List Nat) : Path l l 0
  | snoc {a b c : List Nat} {n : Nat} : Path a b n → Step b c → Path a c (n + 1)

theorem levRec_nil_left (b : List Nat) : levRec [] b = b.length := by
  simp [levRec]

theorem levRec_nil_right (a : List Nat) : levRec a [] = a.length := by
  cases a <;> simp [levRec]

theorem levRec_cons_cons (x y : Nat) (xs ys : List Nat) :
    levRec (x :: xs) (y :: ys) =
      min (levRec xs (y :: ys) + 1)
        (min (levRec (x :: xs) ys + 1) (levRec xs ys + costCU x y)) := by
  simp [levRec]

theorem costCU_le_one (x y : Nat) : costCU x y ≤ 1 := by
  unfold costCU; split <;> omega

theorem costCU_self (x : Nat) : costCU x x = 0 := by
  simp [costCU]

/-- Deleting the head of the first argument changes the distance by at most one. -/
theorem levRec_del_le (y : Nat) (ws z : List Nat) :
    levRec (y :: ws) z ≤ levRec ws z + 1 := by
  cases z with
  | nil => simp [levRec_nil_right]
  | cons c zs => rw [levRec_cons_cons]; omega

/-- Inserting a head into the second argument changes the distance by at most one. -/
theorem levRec_ins_le (x : Nat) (w us : List Nat) :
    levRec w (x :: us) ≤ levRec w us + 1 := by
  cases w with
  | nil => simp [levRec_nil_left]
  | cons z ws => rw [levRec_cons_cons]; omega

theorem levRec_self (l : List Nat) : levRec l l = 0 := by
  induction l with
  | nil => simp [levRec_nil_left]
  | cons c cs ih => rw [levRec_cons_cons, costCU_self, ih]; omega

/-- A single edit changes a list's length by at most one. -/
theorem Step.length_le {u v : List Nat} (h : Step u v) :
    v.length ≤ u.length + 1 := by
  induction h with
  | del x l => simp; omega
  | ins x l => simp
  | sub x y l => simp
  | keep c _ ih => simpa using ih

/-- Editing the second argument by one step changes the distance by at most one. -/
theorem levRec_le_of_step {u v : List Nat} (h : Step u v) :
    ∀ w, levRec w v ≤ levRec w u + 1 := by
  induction h with
  | del x l =>
    intro w
    induction w with
    | nil => simp [levRec_nil_left]; omega
    | cons z ws ih =>
      rw [levRec_cons_cons]
      have h1 := levRec_del_le z ws l
      have h2 := costCU_le_one z x
      omega
  | ins x l =>
    intro w; exact levRec_ins_le x w l
  | sub x y l =>
    intro w
    induction w with
    | nil => simp [levRec_nil_left]
    | cons z ws ih =>
      rw [levRec_cons_cons, levRec_cons_cons]
      have h1 := costCU_le_one z y
      have h2 := levRec_del_le z ws (y :: l)
      have h3 := levRec_del_le z ws l
      omega
  | keep c hst ih =>
    intro w
    induction w with
    | nil =>
      simp only [levRec_nil_left, List.length_cons]
      have := hst.length_le
      omega
    | cons z ws ihw =>
      rw [levRec_cons_cons, levRec_cons_cons]
      have h1 := ih (z :: ws)
      have h2 := ih ws
      omega

theorem path_single {a b : List Nat} (h : Step a b) : Path a b 1 :=
  (Path.refl a).snoc h

theorem path_trans {a b c : List Nat} {m n : Nat}
    (h1 : Path a b m) (h2 : Path b c n) : Path a c (m + n) := by
  induction h2 with
  | refl => exact h1
  | snoc p s ih => exact (ih.snoc s)

theorem path_cons {a b c : List Nat} {n : Nat}
    (s : Step a b) (p : Path b c n) : Path a c (n + 1) := by
  have := path_trans (path_single s) p
  simpa [Nat.add_comm] using this

/-- Edits lift through a common head. -/
theorem path_keep {u v : List Nat} {n : Nat} (c : Nat)
    (h : Path u v n) : Path (c :: u) (c :: v) n := by
  induction h with
  | refl => exact Path.refl _
  | snoc p s ih => exact ih.snoc (Step.keep c s)

theorem path_nil_to (b : List Nat) : Path [] b b.length := by
  induction b with
  | nil => exact Path.refl []
  | cons y ys ih => simpa using ih.snoc (Step.ins y ys)

theorem path_to_nil (a : List Nat) : Path a [] a.length := by
  induction a with
  | nil => exact Path.refl []
  | cons x xs ih => simpa using path_cons (Step.del x xs) ih

/-- Soundness: the recurrence value is a lower bound on every edit path. -/
theorem levRec_le_path {a b : List Nat} {n : Nat} (h : Path a b n) :
    levRec a b ≤ n := by
  induction h with
  | refl => simp [levRec_self]
  | snoc p s ih =>
    have := levRec_le_of_step s a
    omega

/-- Completeness: there is an edit path of exactly the recurrence value. -/
theorem path_levRec_aux : ∀ N a b, a.length + b.length ≤ N → Path a b (levRec a b) := by
  intro N
  induction N with
  | zero =>
    intro a b h
    match a, b with
    | [], [] => simpa [levRec_nil_left] using Path.refl ([] : List Nat)
    | [], _ :: _ => simp at h
    | _ :: _, _ => simp at h
  | succ N ih =>
    intro a b h
    match a, b with
    | [], b => simpa [levRec_nil_left] using path_nil_to b
    | a :: as, [] => simpa [levRec_nil_right] using path_to_nil (a :: as)
    | x :: xs, y :: ys =>
      rw [levRec_cons_cons]
      have hxs : xs.length + (y :: ys).length ≤ N := by simp at h ⊢; omega
      have hys : (x :: xs).length + ys.length ≤ N := by simp at h ⊢; omega
      have hxys : xs.length + ys.length ≤ N := by simp at h ⊢; omega
      rcases min_choice (levRec xs (y :: ys) + 1)
          (min (levRec (x :: xs) ys + 1) (levRec xs ys + costCU x y)) with h1 | h1 <;>
        rw [h1]
      · exact path_cons (Step.del x xs) (ih xs (y :: ys) hxs)
      · rcases min_choice (levRec (x :: xs) ys + 1) (levRec xs ys + costCU x y) with h2 | h2 <;>
          rw [h2]
        · exact (ih (x :: xs) ys hys).snoc (Step.ins y ys)
        · by_cases hxy : x = y
          · subst hxy
            simpa [costCU_self] using path_keep x (ih xs ys hxys)
          · have hc : costCU x y = 1 := by simp [costCU, hxy]
            rw [hc]
            exact (path_keep x (ih xs ys hxys)).snoc (Step.sub x y ys)

theorem path_levRec (a b : List Nat) : Path a b (levRec a b) :=
  path_levRec_aux (a.length + b.length) a b le_rfl

/-- `levRec a b` is the least number of single-character edits turning
`a` into `b`. -/
theorem levRec_isLeast (a b : List Nat) :
    IsLeast {n | Path a b n} (levRec a b) :=
  ⟨path_levRec a b, fun _ hn => levRec_le_path hn⟩

theorem step_symm {u v : List Nat} (h : Step u v) : Step v u := by
  induction h with
  | del x l => exact Step.ins x l
  | ins x l => exact Step.del x l
  | sub x y l => exact Step.sub y x l
  | keep c _ ih => exact Step.keep c ih

theorem path_symm {a b : List Nat} {n : Nat} (h : Path a b n) : Path b a n := by
  induction h with
  | refl => exact Path.refl _
  | snoc p s ih => exact path_cons (step_symm s) ih

theorem levRec_symm (a b : List Nat) : levRec a b = levRec b a :=
  le_antisymm (levRec_le_path (path_symm (path_levRec b a)))
    (levRec_le_path (path_symm (path_levRec a b)))

theorem levRec_triangle (a b c : List Nat) :
    levRec a c ≤ levRec a b + levRec b c :=
  levRec_le_path (path_trans (path_levRec a b) (path_levRec b c))

theorem step_append {u v : List Nat} (r : List Nat) (h : Step u v) :
    Step (u ++ r) (v ++ r) := by
  induction h with
  | del x l => simpa using Step.del x (l ++ r)
  | ins x l => simpa using Step.ins x (l ++ r)
  | sub x y l => simpa using Step.sub x y (l ++ r)
  | keep c _ ih => simpa using Step.keep c ih

theorem step_del_last (l : List Nat) (x : Nat) : Step (l ++ [x]) l := by
  induction l with
  | nil => simpa using Step.del x []
  | cons c cs ih => simpa using Step.keep c ih

theorem step_ins_last (l : List Nat) (x : Nat) : Step l (l ++ [x]) := by
  induction l with
  | nil => simpa using Step.ins x []
  | cons c cs ih => simpa using Step.keep c ih

theorem step_sub_last (l : List Nat) (x y : Nat) :
    Step (l ++ [x]) (l ++ [y]) := by
  induction l with
  | nil => simpa using Step.sub x y []
  | cons c cs ih => simpa using Step.keep c ih

theorem step_reverse {u v : List Nat} (h : Step u v) :
    Step u.reverse v.reverse := by
  induction h with
  | del x l => simpa using step_del_last l.reverse x
  | ins x l => simpa using step_ins_last l.reverse x
  | sub x y l => simpa using step_sub_last l.reverse x y
  | keep c _ ih => simpa using step_append [c] ih

theorem path_reverse {a b : List Nat} {n : Nat} (h : Path a b n) :
    Path a.reverse b.reverse n := by
  induction h with
  | refl => exact Path.refl _
  | snoc p s ih => exact ih.snoc (step_reverse s)

theorem levRec_reverse (a b : List Nat) :
    levRec a b = levRec a.reverse b.reverse := by
  refine le_antisymm ?_ ?_
  · have h := path_reverse (path_levRec a.reverse b.reverse)
    simp only [List.reverse_reverse] at h
    exact levRec_le_path h
  · exact levRec_le_path (path_reverse (path_levRec a b))

/-- The recurrence read off at the last elements instead of the first. -/
theorem levRec_append_append (u v : List Nat) (x y : Nat) :
    levRec (u ++ [x]) (v ++ [y]) =
      min (levRec u (v ++ [y]) + 1)
        (min (levRec (u ++ [x]) v + 1) (levRec u v + costCU x y)) := by
  have h1 : levRec (u ++ [x]) (v ++ [y]) =
      levRec (x :: u.reverse) (y :: v.reverse) := by
    simpa using levRec_reverse (u ++ [x]) (v ++ [y])
  have h2 : levRec u.reverse (y :: v.reverse) = levRec u (v ++ [y]) := by
    have := levRec_reverse u (v ++ [y])
    simpa using this.symm
  have h3 : levRec (x :: u.reverse) v.reverse = levRec (u ++ [x]) v := by
    have := levRec_reverse (u ++ [x]) v
    simpa using this.symm
  have h4 : levRec u.reverse v.reverse = levRec u v := (levRec_reverse u v).symm
  rw [h1, levRec_cons_cons, h2, h3, h4]

/-! ## The dynamic program computes the recurrence -/

/-- Specification of a DP row: `specRowFrom u v b` lists the distances
from `u` to `v`, `v ++ (b.take 1)`, …, `v ++ b`. -/
def specRowFrom (u v : List Nat) : List Nat → List Nat
  | [] => [levRec u v]
  | c :: bs => levRec u v :: specRowFrom u (v ++ [c]) bs

theorem specRowFrom_cons (u v b : List Nat) :
    specRowFrom u v b = levRec u v :: (specRowFrom u v b).tail := by
  cases b <;> rfl

theorem rowStep_spec (x : Nat) (u : List Nat) : ∀ (bs v : List Nat),
    rowStep x bs (specRowFrom u v bs).tail (levRec u v) (levRec (u ++ [x]) v) =
      (specRowFrom (u ++ [x]) v bs).tail := by
  intro bs
  induction bs with
  | nil => intro v; rfl
  | cons c bs ih =>
    intro v
    show rowStep x (c :: bs) (specRowFrom u (v ++ [c]) bs)
        (levRec u v) (levRec (u ++ [x]) v) = specRowFrom (u ++ [x]) (v ++ [c]) bs
    rw [specRowFrom_cons u (v ++ [c]) bs]
    show (min (levRec u (v ++ [c]) + 1)
        (min (levRec (u ++ [x]) v + 1) (levRec u v + costCU x c))) ::
        rowStep x bs (specRowFrom u (v ++ [c]) bs).tail (levRec u (v ++ [c]))
          (min (levRec u (v ++ [c]) + 1)
            (min (levRec (u ++ [x]) v + 1) (levRec u v + costCU x c))) =
      specRowFrom (u ++ [x]) (v ++ [c]) bs
    rw [← levRec_append_append, ih (v ++ [c]), ← specRowFrom_cons]

theorem nextRow_spec (x : Nat) (u b : List Nat) :
    nextRow x b (specRowFrom u [] b) = specRowFrom (u ++ [x]) [] b := by
  rw [specRowFrom_cons u [] b]
  show (levRec u [] + 1) :: rowStep x b (specRowFrom u [] b).tail (levRec u []) (levRec u [] + 1) =
    specRowFrom (u ++ [x]) [] b
  have h0 : levRec u [] + 1 = levRec (u ++ [x]) [] := by
    simp [levRec_nil_right]
  rw [h0]
  conv_lhs => rw [specRowFrom_cons u [] b]
  show levRec (u ++ [x]) [] ::
      rowStep x b (specRowFrom u [] b).tail (levRec u []) (levRec (u ++ [x]) []) =
    specRowFrom (u ++ [x]) [] b
  rw [rowStep_spec x u b [], ← specRowFrom_cons]

theorem specRowFrom_nil_u : ∀ (b v : List Nat),
    specRowFrom [] v b = (List.range (b.length + 1)).map (v.length + ·) := by
  intro b
  induction b with
  | nil =>
    intro v
    show [levRec [] v] = _
    rw [levRec_nil_left]
    rfl
  | cons c bs ih =>
    intro v
    show levRec [] v :: specRowFrom [] (v ++ [c]) bs = _
    rw [levRec_nil_left, ih (v ++ [c])]
    conv_rhs =>
      rw [show (c :: bs).length + 1 = (bs.length + 1) + 1 by simp,
        List.range_succ_eq_map]
    simp only [List.map_cons, Nat.add_zero, List.map_map]
    congr 1
    apply List.map_congr_left
    intro j hj
    simp [Function.comp_def, List.length_append]
    omega

theorem range_eq_specRowFrom (b : List Nat) :
    List.range (b.length + 1) = specRowFrom [] [] b := by
  rw [specRowFrom_nil_u b []]
  simp

theorem foldl_nextRow_spec (b : List Nat) : ∀ (a u : List Nat),
    a.foldl (fun prev ca => nextRow ca b prev) (specRowFrom u [] b) =
      specRowFrom (u ++ a) [] b := by
  intro a
  induction a with
  | nil => intro u; simp
  | cons x as ih =>
    intro u
    simp only [List.foldl_cons]
    rw [nextRow_spec x u b, ih (u ++ [x])]
    simp

theorem getLast_specRowFrom : ∀ (b u v : List Nat),
    (specRowFrom u v b).getLast?.getD 0 = levRec u (v ++ b) := by
  intro b
  induction b with
  | nil => intro u v; simp [specRowFrom]
  | cons c bs ih =>
    intro u v
    show ((levRec u v :: specRowFrom u (v ++ [c]) bs).getLast?).getD 0 = _
    rw [specRowFrom_cons u (v ++ [c]) bs, List.getLast?_cons_cons, ← specRowFrom_cons]
    rw [ih u (v ++ [c])]
    simp

/-- The dynamic program of the source computes the textbook recurrence. -/
theorem levenshtein_eq_levRec (a b : List Nat) : levenshtein a b = levRec a b := by
  unfold levenshtein
  rw [range_eq_specRowFrom b]
  have h := foldl_nextRow_spec b a []
  simp only [List.nil_append] at h
  rw [h, getLast_specRowFrom b a []]
  simp

/-! ## Properties of `levenshtein`, transported from the recurrence -/

theorem levenshtein_self (l : List Nat) : levenshtein l l = 0 := by
  rw [levenshtein_eq_levRec]; exact levRec_self l

theorem levenshtein_symm (a b : List Nat) : levenshtein a b = levenshtein b a := by
  rw [levenshtein_eq_levRec, levenshtein_eq_levRec]; exact levRec_symm a b

theorem levenshtein_triangle (a b c : List Nat) :
    levenshtein a c ≤ levenshtein a b + levenshtein b c := by
  simp only [levenshtein_eq_levRec]; exact levRec_triangle a b c

/-- `levenshtein a b` is the least number of single-character edits turning
`a` into `b`: the classic unit-cost insert/delete/substitute distance. -/
theorem levenshtein_isLeast (a b : List Nat) :
    IsLeast {n | Path a b n} (levenshtein a b) := by
  rw [levenshtein_eq_levRec]; exact levRec_isLeast a b

theorem levRec_le_max : ∀ N a b, a.length + b.length ≤ N →
    levRec a b ≤ max a.length b.length := by
  intro N
  induction N with
  | zero =>
    intro a b h
    match a, b with
    | [], [] => simp [levRec_nil_left]
    | [], _ :: _ => simp at h
    | _ :: _, _ => simp at h
  | succ N ih =>
    intro a b h
    match a, b with
    | [], b => simp [levRec_nil_left]
    | a :: as, [] => simp [levRec_nil_right]
    | x :: xs, y :: ys =>
      rw [levRec_cons_cons]
      have hxys : xs.length + ys.length ≤ N := by simp at h ⊢; omega
      have h1 := ih xs ys hxys
      have h2 := costCU_le_one x y
      simp only [List.length_cons]
      omega

theorem levenshtein_le_max (a b : List Nat) :
    levenshtein a b ≤ max a.length b.length := by
  rw [levenshtein_eq_levRec]
  exact levRec_le_max (a.length + b.length) a b le_rfl

theorem levRec_eq_zero : ∀ N a b, a.length + b.length ≤ N →
    levRec a b = 0 → a = b := by
  intro N
  induction N with
  | zero =>
    intro a b h
    match a, b with
    | [], [] => intro _; rfl
    | [], _ :: _ => simp at h
    | _ :: _, _ => simp at h
  | succ N ih =>
    intro a b h
    match a, b with
    | [], [] => intro _; rfl
    | [], c :: cs => rw [levRec_nil_left]; simp
    | c :: cs, [] => rw [levRec_nil_right]; simp
    | x :: xs, y :: ys =>
      rw [levRec_cons_cons]
      intro h0
      have hc : costCU x y = 0 ∧ levRec xs ys = 0 := by
        have := costCU_le_one x y
        omega
      have hxy : x = y := by
        have := hc.1
        by_contra hne
        simp [costCU, hne] at this
      have hxys : xs.length + ys.length ≤ N := by simp at h ⊢; omega
      rw [hxy, ih xs ys hxys hc.2]

theorem levenshtein_eq_zero_iff (a b : List Nat) :
    levenshtein a b = 0 ↔ a = b := by
  rw [levenshtein_eq_levRec]
  constructor
  · exact levRec_eq_zero (a.length + b.length) a b le_rfl
  · rintro rfl; exact levRec_self a

/-! ## Whitespace machinery -/

theorem splitSp_ne_nil : ∀ l : List Nat, splitSp l ≠ [] := by
  intro l
  cases l with
  | nil => simp [splitSp]
  | cons c cs =>
    rw [splitSp]
    split
    · simp
    · rcases h : splitSp cs with _ | ⟨w, ws⟩ <;> simp [h]

theorem mem_collapseWs {c : Nat} : ∀ l, c ∈ collapseWs l → c = 32 ∨ c ∈ l := by
  intro l
  induction l with
  | nil => simp [collapseWs]
  | cons a l ih =>
    cases l with
    | nil =>
      simp only [collapseWs, List.mem_singleton]
      intro h
      split at h
      · exact Or.inl h
      · subst h; simp
    | cons d rest =>
      rw [collapseWs]
      split
      · intro h
        rcases ih h with h32 | hm
        · exact Or.inl h32
        · exact Or.inr (List.mem_cons_of_mem a hm)
      · intro h
        rcases List.mem_cons.mp h with heq | hm
        · subst heq
          split
          · simp
          · simp
        · rcases ih hm with h32 | hmm
          · exact Or.inl h32
          · exact Or.inr (List.mem_cons_of_mem a hmm)

theorem bandE {a b : Bool} (h : (a && b) = true) : a = true ∧ b = true := by
  constructor <;> simp_all

theorem mem_trimRight {c : Nat} : ∀ l, c ∈ trimRight l → c ∈ l := by
  intro l
  induction l with
  | nil => simp [trimRight]
  | cons a l ih =>
    rw [trimRight]
    rcases h : trimRight l with _ | ⟨r, rs⟩
    · intro hm
      by_cases hsp : isSpaceB a = true
      · simp [hsp] at hm
      · simp [hsp] at hm
        subst hm; simp
    · intro hm
      rcases List.mem_cons.mp hm with heq | hmm
      · subst heq; simp
      · exact List.mem_cons_of_mem a (ih (h ▸ hmm))

theorem mem_trimWs {c : Nat} {l : List Nat} (h : c ∈ trimWs l) : c ∈ l :=
  (List.dropWhile_sublist isSpaceB).mem (mem_trimRight _ h)

/-- A list is whitespace-normal when every whitespace character in it is a
plain space and no two adjacent characters are both whitespace. -/
def wsNorm : List Nat → Bool
  | [] => true
  | [c] => !isSpaceB c || c == 32
  | c :: d :: rest =>
    ((!isSpaceB c || c == 32) && !(isSpaceB c && isSpaceB d)) && wsNorm (d :: rest)

theorem wsNorm_tail {c : Nat} {cs : List Nat} (h : wsNorm (c :: cs) = true) :
    wsNorm cs = true := by
  cases cs with
  | nil => rfl
  | cons d rest => rw [wsNorm] at h; exact (bandE h).2

theorem wsNorm_head {c : Nat} {cs : List Nat} (h : wsNorm (c :: cs) = true) :
    (!isSpaceB c || c == 32) = true := by
  cases cs with
  | nil => exact h
  | cons d rest =>
    rw [wsNorm] at h
    exact (bandE (bandE h).1).1

theorem collapseWs_cons_of_not_space {d : Nat} (cs : List Nat)
    (h : isSpaceB d = false) : ∃ t, collapseWs (d :: cs) = d :: t := by
  cases cs with
  | nil => exact ⟨[], by simp [collapseWs, h]⟩
  | cons e rest =>
    refine ⟨collapseWs (e :: rest), ?_⟩
    rw [collapseWs]
    simp [h]

theorem collapseWs_ne_nil (c : Nat) (cs : List Nat) : collapseWs (c :: cs) ≠ [] := by
  induction cs generalizing c with
  | nil => simp [collapseWs]
  | cons d rest ih =>
    rw [collapseWs]
    split
    · exact ih d
    · simp

theorem wsNorm_collapseWs : ∀ l, wsNorm (collapseWs l) = true := by
  intro l
  induction l with
  | nil => rfl
  | cons c cs ih =>
    cases cs with
    | nil =>
      show wsNorm [if isSpaceB c then 32 else c] = true
      rw [wsNorm]
      split <;> simp_all
    | cons d rest =>
      rw [collapseWs]
      split
      · exact ih
      · rename_i hnot
        by_cases hc : isSpaceB c = true
        · have hd : isSpaceB d = false := by
            cases hdd : isSpaceB d <;> simp_all
          obtain ⟨t, ht⟩ := collapseWs_cons_of_not_space rest hd
          rw [ht] at ih ⊢
          simp only [hc, if_true]
          rw [wsNorm]
          simp [hd, ih]
        · have hc' : isSpaceB c = false := by simpa using hc
          simp only [hc', Bool.false_eq_true, if_false]
          rcases hsh : collapseWs (d :: rest) with _ | ⟨e, t⟩
          · exact absurd hsh (collapseWs_ne_nil d rest)
          · rw [hsh] at ih
            rw [wsNorm]
            have he : isSpaceB e = false ∨ e = 32 := by
              have := wsNorm_head ih
              cases hee : isSpaceB e <;> simp_all
            have : (!isSpaceB c || c == 32) = true := by simp [hc']
            simp only [this, hc', Bool.false_and, Bool.not_false, Bool.true_and, ih,
              Bool.and_true]
            rfl

theorem collapseWs_eq_self : ∀ l, wsNorm l = true → collapseWs l = l := by
  intro l
  induction l with
  | nil => intro _; rfl
  | cons c cs ih =>
    intro h
    cases cs with
    | nil =>
      show [if isSpaceB c then 32 else c] = [c]
      have := wsNorm_head h
      split <;> simp_all
    | cons d rest =>
      rw [collapseWs]
      have htl := wsNorm_tail h
      rw [wsNorm] at h
      have h1 := bandE h
      have h2 := bandE h1.1
      have hnotdd : (isSpaceB c && isSpaceB d) = false := by
        cases hx : (isSpaceB c && isSpaceB d) <;> simp_all
      rw [hnotdd]
      simp only [Bool.false_eq_true, if_false]
      rw [ih htl]
      congr 1
      cases hc : isSpaceB c with
      | false => simp
      | true =>
        have hx : (c == 32) = true := by
          have h21 := h2.1
          rw [hc] at h21
          simpa using h21
        have hc32 : c = 32 := by simpa using hx
        simp [hc32]

theorem wsNorm_dropWhile (l : List Nat) (h : wsNorm l = true) :
    wsNorm (l.dropWhile isSpaceB) = true := by
  induction l with
  | nil => exact h
  | cons c cs ih =>
    rw [List.dropWhile_cons]
    split
    · exact ih (wsNorm_tail h)
    · exact h

theorem trimRight_shape (c : Nat) (cs : List Nat) :
    trimRight (c :: cs) = [] ∨ ∃ t, trimRight (c :: cs) = c :: t := by
  rw [trimRight]
  rcases h : trimRight cs with _ | ⟨r, rs⟩
  · by_cases hsp : isSpaceB c = true
    · exact Or.inl (by simp [hsp])
    · exact Or.inr ⟨[], by simp [hsp]⟩
  · exact Or.inr ⟨r :: rs, rfl⟩

theorem wsNorm_trimRight : ∀ l, wsNorm l = true → wsNorm (trimRight l) = true := by
  intro l
  induction l with
  | nil => intro h; exact h
  | cons c cs ih =>
    intro h
    rw [trimRight]
    rcases hr : trimRight cs with _ | ⟨r, rs⟩
    · by_cases hsp : isSpaceB c = true
      · simp [hsp, wsNorm]
      · have hh := wsNorm_head h
        simp [hsp, wsNorm, hh]
    · have htr := ih (wsNorm_tail h)
      rw [hr] at htr
      rcases cs with _ | ⟨d, rest⟩
      · simp [trimRight] at hr
      · rcases trimRight_shape d rest with hsh | ⟨t, hsh⟩
        · rw [hsh] at hr; exact absurd hr.symm (List.cons_ne_nil r rs)
        · rw [hsh] at hr
          injection hr with h1 h2
          subst h1
          rw [wsNorm]
          rw [wsNorm] at h
          have h1 := bandE h
          have h2 := bandE h1.1
          simp [h2.1, h2.2, htr]

theorem wsNorm_trimWs (l : List Nat) (h : wsNorm l = true) :
    wsNorm (trimWs l) = true :=
  wsNorm_trimRight _ (wsNorm_dropWhile l h)

theorem trimRight_trimRight : ∀ l, trimRight (trimRight l) = trimRight l := by
  intro l
  induction l with
  | nil => rfl
  | cons c cs ih =>
    rw [trimRight]
    rcases hr : trimRight cs with _ | ⟨r, rs⟩
    · by_cases hsp : isSpaceB c = true
      · simp [hsp, trimRight]
      · simp [hsp, trimRight]
    · rw [hr] at ih
      show trimRight (c :: r :: rs) = c :: r :: rs
      rw [trimRight, ih]

theorem dropWhile_trimRight_dropWhile (l : List Nat) :
    (trimRight (l.dropWhile isSpaceB)).dropWhile isSpaceB =
      trimRight (l.dropWhile isSpaceB) := by
  rcases h : l.dropWhile isSpaceB with _ | ⟨c, cs⟩
  · simp [trimRight]
  · have hc : isSpaceB c = false := by
      have := List.head?_dropWhile_not isSpaceB l
      rw [h] at this
      simpa using this
    rcases trimRight_shape c cs with hsh | ⟨t, hsh⟩
    · simp [hsh]
    · rw [hsh, List.dropWhile_cons_of_neg (by simp [hc])]

theorem trimWs_trimWs (l : List Nat) : trimWs (trimWs l) = trimWs l := by
  unfold trimWs
  rw [dropWhile_trimRight_dropWhile, trimRight_trimRight]

/-- The record `{score, charSim, wordSim}` returned by `similarityScore`,
with JavaScript numbers modelled as exact rationals. -/
structure SimResult where
  score : ℚ
  charSim : ℚ
  wordSim : ℚ
deriving DecidableEq

namespace V1

/-- First variant's `normalizeText`: lower-case, NFC, strip the fixed
punctuation class, collapse whitespace runs, trim.  `if (!s) return ""`
is the empty-string guard. -/
def normalizeText (s : List Nat) : List Nat :=
  if s = [] then []
  else trimWs (collapseWs ((nfcScan (s.map toLowerCU)).filter (fun c => !isPunctV1 c)))

/-- First variant's `similarityScore` (with the extra `maxLen ? … : 0`
guard on `charSim`). -/
def similarityScore (target said : List Nat) : SimResult :=
  let A := normalizeText target
  let B := normalizeText said
  if A = [] ∨ B = [] then ⟨0, 0, 0⟩
  else
    let dist := levenshtein A B
    let maxLen := max A.length B.length
    let charSim : ℚ := if maxLen ≠ 0 then 1 - (dist : ℚ) / (maxLen : ℚ) else 0
    let ta := splitSp A
    let ba := splitSp B
    let hit := ba.countP (fun w => ta.contains w)
    let wordSim : ℚ := if ba.length ≠ 0 then (hit : ℚ) / (ba.length : ℚ) else 0
    let score := max 0 (min 1 ((7/10) * charSim + (3/10) * wordSim))
    ⟨score, charSim, wordSim⟩

end V1

namespace V2

/-- Second variant's `normalizeText`: lower-case, NFKD, strip the
combining marks U+0300–U+036F, keep only `\p{L}`, `\p{N}` and whitespace,
collapse whitespace runs, trim. -/
def normalizeText (s : List Nat) : List Nat :=
  trimWs (collapseWs
    (((((s.map toLowerCU).map nfkdCU).flatten).filter
        (fun c => !isCombMarkB c)).filter
      (fun c => isWordCharB c || isSpaceB c)))

/-- Second variant's `similarityScore`. -/
def similarityScore (target said : List Nat) : SimResult :=
  let A := normalizeText target
  let B := normalizeText said
  if A = [] ∨ B = [] then ⟨0, 0, 0⟩
  else
    let dist := levenshtein A B
    let maxLen := max A.length B.length
    let charSim : ℚ := 1 - (dist : ℚ) / (maxLen : ℚ)
    let ta := splitSp A
    let ba := splitSp B
    let hit := ba.countP (fun w => ta.contains w)
    let wordSim : ℚ := if ba.length ≠ 0 then (hit : ℚ) / (ba.length : ℚ) else 0
    let score := max 0 (min 1 ((7/10) * charSim + (3/10) * wordSim))
    ⟨score, charSim, wordSim⟩

end V2

/-! ## The session state machine

Embeds the view state of the `TongueTwisterX` component (first variant,
ordered catalog cycle; `src/unnamed/part_000` has the same transition
structure).  State: current twister index, attempt counter, recorded
scores, recording flag.  Transition guards record which buttons the
component renders: the attempt buttons only while `attempt < maxAttempts`
(and they are disabled while recording), the refresh button only while
`0 < attempt < maxAttempts`, and `new twister` both there and on the
final screen. -/

/-- The `text` fields of the (first variant's) `SAMPLE_TWISTERS` catalog,
as UTF-16 code units. -/
def SAMPLE_TWISTERS_text : List (List Nat) := [
  [84,114,101,115,32,116,114,105,115,116,101,115,32,116,105,103,114,101,115,32,116,114,97,103,97,98,97,110,32,116,114,105,103,111,32,101,110,32,117,110,32,116,114,105,103,97,108,46],
  [83,104,101,32,115,101,108,108,115,32,115,101,97,115,104,101,108,108,115,32,98,121,32,116,104,101,32,115,101,97,115,104,111,114,101,46],
  [85,110,32,99,104,97,115,115,101,117,114,32,115,97,99,104,97,110,116,32,99,104,97,115,115,101,114,32,115,97,105,116,32,99,104,97,115,115,101,114,32,115,97,110,115,32,115,111,110,32,99,104,105,101,110,46],
  [2325,2330,2381,2330,2366,32,2346,2366,2346,2337,2364,2366,32,2346,2325,2366,32,2346,2366,2346,2337,2364,2366,2404],
  [22235,26159,22235,65292,21313,26159,21313,65292,21313,22235,26159,21313,22235,65292,22235,21313,26159,22235,21313,12290],
  [84,114,101,110,116,97,116,114,233,32,116,114,101,110,116,105,110,105,32,101,110,116,114,97,114,111,110,111,32,97,32,84,114,101,110,116,111,44,32,116,117,116,116,105,32,101,32,116,114,101,110,116,97,116,114,233,32,116,114,111,116,116,101,114,101,108,108,97,110,100,111,46],
  [68,101,32,107,97,116,32,107,114,97,98,116,32,100,101,32,107,114,117,108,108,101,110,32,118,97,110,32,100,101,32,116,114,97,112,46],
  [70,105,115,99,104,101,114,115,32,70,114,105,116,122,32,102,105,115,99,104,116,32,102,114,105,115,99,104,101,32,70,105,115,99,104,101,44,32,102,114,105,115,99,104,101,32,70,105,115,99,104,101,32,102,105,115,99,104,116,32,70,105,115,99,104,101,114,115,32,70,114,105,116,122,46],
  [79,32,114,97,116,111,32,114,111,101,117,32,97,32,114,111,117,112,97,32,100,111,32,114,101,105,32,100,101,32,82,111,109,97,46],
  [86,101,115,105,104,105,105,115,105,32,115,105,104,105,115,105,32,104,105,115,115,105,115,115,228,46],
  [67,104,114,122,261,115,122,99,122,32,98,114,122,109,105,32,119,32,116,114,122,99,105,110,105,101,32,119,32,83,122,99,122,101,98,114,122,101,115,122,121,110,105,101,46]]

/-- `Math.round(q * 100)` of the component's score display (round half up,
exact for the non-negative scores at hand). -/
def roundPct (q : ℚ) : ℤ := (q * 100 + 1/2).floor

/-- One entry of the `scores` array, as built in the `onresult` handler. -/
structure AttemptRec where
  attempt : Nat
  transcript : List Nat
  score : ℤ
  charSim : ℤ
  wordSim : ℤ

/-- The score record appended by `recog.onresult`. -/
def mkAttemptRec (n : Nat) (target transcript : List Nat) : AttemptRec :=
  ⟨n, transcript, roundPct (V1.similarityScore target transcript).score,
    roundPct (V1.similarityScore target transcript).charSim,
    roundPct (V1.similarityScore target transcript).wordSim⟩

/-- The attempt cap: `const [maxAttempts] = useState(6)`. -/
def maxAttempts : Nat := 6

/-- The component's session state. -/
structure Session where
  twisterIndex : Nat
  attempt : Nat
  scores : List AttemptRec
  recording : Bool

/-- Initial state: `useState(0)`, `useState(0)`, `useState([])`, `useState(false)`. -/
def initSession : Session := ⟨0, 0, [], false⟩

/-- `SAMPLE_TWISTERS[twisterIndex].text`. -/
def currentText (s : Session) : List Nat :=
  SAMPLE_TWISTERS_text.getD s.twisterIndex []

/-- The transitions of the component.  The hypotheses of each constructor
are the conditions under which the component makes the corresponding
handler reachable (button rendering/disabling); `result` and `stop` can
only fire while a recognition started by `start` is active. -/
inductive SessionStep : Session → Session → Prop
  | start (s : Session) (h : s.attempt < maxAttempts) (hr : s.recording = false) :
      SessionStep s { s with recording := true }
  | result (s : Session) (t : List Nat) (hr : s.recording = true) :
      SessionStep s { s with
        scores := s.scores ++ [mkAttemptRec (s.attempt + 1) (currentText s) t],
        attempt := s.attempt + 1,
        recording := false }
  | stop (s : Session) (hr : s.recording = true) :
      SessionStep s { s with recording := false }
  | next (s : Session) :
      SessionStep s
        ⟨(s.twisterIndex + 1) % SAMPLE_TWISTERS_text.length, 0, [], s.recording⟩
  | refresh (s : Session) (h1 : 0 < s.attempt) (h2 : s.attempt < maxAttempts) :
      SessionStep s { s with recording := false, attempt := 0, scores := [] }

/-- States reachable from the initial state. -/
def Reachable (s : Session) : Prop :=
  Relation.ReflTransGen SessionStep initSession s

/-- The session invariant: one score per attempt, the attempt counter never
exceeds the cap, and recording is only ever active below the cap. -/
def SessionInv (s : Session) : Prop :=
  s.scores.length = s.attempt ∧ s.attempt ≤ maxAttempts ∧
    (s.recording = true → s.attempt < maxAttempts)

theorem sessionInv_init : SessionInv initSession := by
  refine ⟨rfl, by decide, ?_⟩
  intro h
  simp [initSession] at h

theorem sessionInv_step {s s' : Session} (hinv : SessionInv s)
    (h : SessionStep s s') : SessionInv s' := by
  obtain ⟨hlen, hle, hrec⟩ := hinv
  cases h with
  | start h hr => exact ⟨hlen, hle, fun _ => h⟩
  | result t hr =>
    have hlt := hrec hr
    refine ⟨?_, by simpa using hlt, ?_⟩
    · simp [hlen]
    · intro hcontra; simp at hcontra
  | stop hr =>
    refine ⟨hlen, hle, ?_⟩
    intro hcontra; simp at hcontra
  | next =>
    refine ⟨rfl, by simp [maxAttempts], ?_⟩
    intro _; simp [maxAttempts]
  | refresh h1 h2 =>
    refine ⟨rfl, by simp [maxAttempts], ?_⟩
    intro hcontra; simp at hcontra

theorem reachable_inv {s : Session} (h : Reachable s) : SessionInv s := by
  induction h with
  | refl => exact sessionInv_init
  | tail _ hstep ih => exact sessionInv_step ih hstep

/-- From a capped session the only enabled transition is the catalog
advance. -/
theorem capped_step {s s' : Session} (hinv : SessionInv s)
    (hcap : maxAttempts ≤ s.attempt) (h : SessionStep s s') :
    s' = ⟨(s.twisterIndex + 1) % SAMPLE_TWISTERS_text.length, 0, [],
      s.recording⟩ := by
  cases h with
  | start h hr => omega
  | result t hr => have := hinv.2.2 hr; omega
  | stop hr => have := hinv.2.2 hr; omega
  | next => rfl
  | refresh h1 h2 => omega

/-! ## Idempotence of the NFKD-variant normalizer on the Latin-1 repertoire

The NFKD variant is *not* idempotent in general: lower-casing fixes
U+03D2 (which has no lowercase mapping) but NFKD decompatibilizes it to
the uppercase Υ, which only a second pass lowercases (see the C8
counterexample).  On strings of Basic Latin and Latin-1 code units,
though, everything lower-casing and decomposition produce is stable, and
idempotence holds. -/

set_option maxRecDepth 4096 in
/-- On the Basic Latin and Latin-1 code units, the characters produced by
lower-casing and decomposing are themselves fixed by both operations. -/
theorem char_stable_small : ∀ c < 256, ∀ d ∈ nfkdCU (toLowerCU c),
    toLowerCU d = d ∧ nfkdCU d = [d] := by decide

theorem map_id_of {f : Nat → Nat} {l : List Nat} (h : ∀ c ∈ l, f c = c) :
    l.map f = l := by
  induction l with
  | nil => rfl
  | cons a l ih =>
    simp only [List.map_cons, h a (by simp)]
    rw [ih (fun c hc => h c (List.mem_cons_of_mem a hc))]

theorem flatten_map_singleton {l : List Nat} (h : ∀ c ∈ l, nfkdCU c = [c]) :
    (l.map nfkdCU).flatten = l := by
  induction l with
  | nil => rfl
  | cons a l ih =>
    simp only [List.map_cons, List.flatten_cons, h a (by simp)]
    rw [ih (fun c hc => h c (List.mem_cons_of_mem a hc))]
    rfl

/-- Every character of the V2-normalization of a Latin-1 string is fixed
by lower-casing and decomposition, is not a combining mark, and passes the
letter/number/space filter. -/
theorem normalizeText_char (s : List Nat) (hs : ∀ c ∈ s, c < 256) :
    ∀ d ∈ V2.normalizeText s, toLowerCU d = d ∧ nfkdCU d = [d] ∧
      isCombMarkB d = false ∧ (isWordCharB d || isSpaceB d) = true := by
  intro d hd
  simp only [V2.normalizeText] at hd
  have hd1 := mem_trimWs hd
  rcases mem_collapseWs _ hd1 with h32 | hF
  · subst h32
    exact ⟨by decide, by decide, by decide, by decide⟩
  · have h2 := List.mem_filter.mp hF
    have h3 := List.mem_filter.mp h2.1
    have hJ := h3.1
    rw [List.mem_flatten] at hJ
    obtain ⟨l, hl, hdl⟩ := hJ
    rw [List.mem_map] at hl
    obtain ⟨c', hc', rfl⟩ := hl
    rw [List.mem_map] at hc'
    obtain ⟨a, ha, rfl⟩ := hc'
    have hst := char_stable_small a (hs a ha) d hdl
    have hmark : isCombMarkB d = false := by
      have hm := h3.2
      cases hmm : isCombMarkB d <;> simp_all
    exact ⟨hst.1, hst.2, hmark, h2.2⟩

/-- The NFKD-variant normalizer is idempotent on strings of Basic Latin
and Latin-1 code units.  (It is not idempotent in general: see the C8
counterexample with U+03D2.) -/
theorem V2_normalizeText_idem (s : List Nat) (hs : ∀ c ∈ s, c < 256) :
    V2.normalizeText (V2.normalizeText s) = V2.normalizeText s := by
  have hchar := normalizeText_char s hs
  conv_lhs => rw [V2.normalizeText]
  have h1 : (V2.normalizeText s).map toLowerCU = V2.normalizeText s :=
    map_id_of (fun c hc => (hchar c hc).1)
  rw [h1]
  have h2 : ((V2.normalizeText s).map nfkdCU).flatten = V2.normalizeText s :=
    flatten_map_singleton (fun c hc => (hchar c hc).2.1)
  rw [h2]
  have h3 : (V2.normalizeText s).filter (fun c => !isCombMarkB c) =
      V2.normalizeText s :=
    List.filter_eq_self.mpr (fun c hc => by simp [(hchar c hc).2.2.1])
  rw [h3]
  have h4 : (V2.normalizeText s).filter (fun c => isWordCharB c || isSpaceB c) =
      V2.normalizeText s :=
    List.filter_eq_self.mpr (fun c hc => (hchar c hc).2.2.2)
  rw [h4]
  have hw : wsNorm (V2.normalizeText s) = true := by
    rw [V2.normalizeText]
    exact wsNorm_trimWs _ (wsNorm_collapseWs _)
  rw [collapseWs_eq_self _ hw]
  conv_lhs => rw [V2.normalizeText]
  conv_rhs => rw [V2.normalizeText]
  exact trimWs_trimWs _

/-! ## Shared bounds helpers -/

theorem clamp_unit_bounds (x : ℚ) : 0 ≤ max 0 (min 1 x) ∧ max 0 (min 1 x) ≤ 1 :=
  ⟨le_max_left 0 _, max_le zero_le_one (min_le_left 1 x)⟩

theorem charSim_bounds {A B : List Nat} (hA : A ≠ []) :
    0 ≤ 1 - (levenshtein A B : ℚ) / ((max A.length B.length : Nat) : ℚ) ∧
      1 - (levenshtein A B : ℚ) / ((max A.length B.length : Nat) : ℚ) ≤ 1 := by
  have hm : 0 < max A.length B.length := by
    have : A.length ≠ 0 := fun h => hA (List.length_eq_zero.mp h)
    omega
  have hm' : (0 : ℚ) < ((max A.length B.length : Nat) : ℚ) := by exact_mod_cast hm
  have hd : ((levenshtein A B : Nat) : ℚ) ≤ ((max A.length B.length : Nat) : ℚ) := by
    exact_mod_cast levenshtein_le_max A B
  constructor
  · have h1 : ((levenshtein A B : Nat) : ℚ) / ((max A.length B.length : Nat) : ℚ) ≤ 1 :=
      (div_le_one₀ hm').mpr hd
    linarith
  · have h0 : (0 : ℚ) ≤ ((levenshtein A B : Nat) : ℚ) / ((max A.length B.length : Nat) : ℚ) :=
      div_nonneg (by positivity) (le_of_lt hm')
    linarith

theorem ratio_unit_bounds {hit len : Nat} (h : hit ≤ len) :
    0 ≤ (if len ≠ 0 then ((hit : Nat) : ℚ) / ((len : Nat) : ℚ) else 0) ∧
      (if len ≠ 0 then ((hit : Nat) : ℚ) / ((len : Nat) : ℚ) else 0) ≤ 1 := by
  by_cases hl : len ≠ 0
  · rw [if_pos hl]
    have hl' : (0 : ℚ) < ((len : Nat) : ℚ) := by
      have : 0 < len := Nat.pos_of_ne_zero hl
      exact_mod_cast this
    constructor
    · exact div_nonneg (by positivity) (le_of_lt hl')
    · exact (div_le_one₀ hl').mpr (by exact_mod_cast h)
  · rw [if_neg hl]
    norm_num

/-- The UTF-16 encoding of a code point, modelling how JavaScript stores a
string: one code unit below U+10000, a surrogate pair above. -/
def utf16EncodeCP (cp : Nat) : List Nat :=
  if cp < 0x10000 then [cp]
  else [0xD800 + (cp - 0x10000) / 0x400, 0xDC00 + (cp - 0x10000) % 0x400]

/-! ## Claim theorems -/

/-- C1: for every pair of input strings, `similarityScore` (in both
variants) returns a record whose three fields `score`, `charSim` and
`wordSim` are each fractions in the closed interval [0,1]. -/
theorem C1_fields_in_unit_interval (target said : List Nat) :
    (0 ≤ (V1.similarityScore target said).score ∧
      (V1.similarityScore target said).score ≤ 1 ∧
      0 ≤ (V1.similarityScore target said).charSim ∧
      (V1.similarityScore target said).charSim ≤ 1 ∧
      0 ≤ (V1.similarityScore target said).wordSim ∧
      (V1.similarityScore target said).wordSim ≤ 1) ∧
    (0 ≤ (V2.similarityScore target said).score ∧
      (V2.similarityScore target said).score ≤ 1 ∧
      0 ≤ (V2.similarityScore target said).charSim ∧
      (V2.similarityScore target said).charSim ≤ 1 ∧
      0 ≤ (V2.similarityScore target said).wordSim ∧
      (V2.similarityScore target said).wordSim ≤ 1) := by
  constructor
  · by_cases hAB : V1.normalizeText target = [] ∨ V1.normalizeText said = []
    · simp only [V1.similarityScore, if_pos hAB]
      norm_num
    · have hA : V1.normalizeText target ≠ [] := fun h => hAB (Or.inl h)
      simp only [V1.similarityScore, if_neg hAB]
      refine ⟨(clamp_unit_bounds _).1, (clamp_unit_bounds _).2, ?_, ?_, ?_, ?_⟩
      · split
        · exact (charSim_bounds hA).1
        · exact le_refl 0
      · split
        · exact (charSim_bounds hA).2
        · exact zero_le_one
      · exact (ratio_unit_bounds (List.countP_le_length _)).1
      · exact (ratio_unit_bounds (List.countP_le_length _)).2
  · by_cases hAB : V2.normalizeText target = [] ∨ V2.normalizeText said = []
    · simp only [V2.similarityScore, if_pos hAB]
      norm_num
    · have hA : V2.normalizeText target ≠ [] := fun h => hAB (Or.inl h)
      simp only [V2.similarityScore, if_neg hAB]
      exact ⟨(clamp_unit_bounds _).1, (clamp_unit_bounds _).2,
        (charSim_bounds hA).1, (charSim_bounds hA).2,
        (ratio_unit_bounds (List.countP_le_length _)).1,
        (ratio_unit_bounds (List.countP_le_length _)).2⟩

/-- C2: if either input normalizes to the empty string, `similarityScore`
(both variants) returns the all-zero record rather than failing. -/
theorem C2_empty_normalization_zero (x y : List Nat) :
    (V1.normalizeText x = [] ∨ V1.normalizeText y = [] →
      V1.similarityScore x y = ⟨0, 0, 0⟩) ∧
    (V2.normalizeText x = [] ∨ V2.normalizeText y = [] →
      V2.similarityScore x y = ⟨0, 0, 0⟩) := by
  refine ⟨fun h => ?_, fun h => ?_⟩
  · simp only [V1.similarityScore, if_pos h]
  · simp only [V2.similarityScore, if_pos h]

/-- C2 witness: `similarityScore(x, "")` is the all-zero record, at the
concrete input x = "hi". -/
theorem C2_witness :
    V1.similarityScore [104, 105] [] = ⟨0, 0, 0⟩ ∧
    V2.similarityScore [104, 105] [] = ⟨0, 0, 0⟩ :=
  ⟨(C2_empty_normalization_zero [104, 105] []).1 (Or.inr rfl),
   (C2_empty_normalization_zero [104, 105] []).2 (Or.inr rfl)⟩

/-- C3 (amended): when both normalizations are non-empty, `charSim` equals
`1 − editDistance(A,B)/max(|A|,|B|)` and lies in the closed interval
[0,1]; it is not strictly positive in general (see the counterexample),
so the claimed range (0,1] is corrected to [0,1]. -/
theorem C3_charSim_formula_and_bounds (target said : List Nat) :
    (V1.normalizeText target ≠ [] → V1.normalizeText said ≠ [] →
      (V1.similarityScore target said).charSim =
        1 - (levenshtein (V1.normalizeText target) (V1.normalizeText said) : ℚ) /
          ((max (V1.normalizeText target).length (V1.normalizeText said).length : Nat) : ℚ) ∧
      0 ≤ (V1.similarityScore target said).charSim ∧
      (V1.similarityScore target said).charSim ≤ 1) ∧
    (V2.normalizeText target ≠ [] → V2.normalizeText said ≠ [] →
      (V2.similarityScore target said).charSim =
        1 - (levenshtein (V2.normalizeText target) (V2.normalizeText said) : ℚ) /
          ((max (V2.normalizeText target).length (V2.normalizeText said).length : Nat) : ℚ) ∧
      0 ≤ (V2.similarityScore target said).charSim ∧
      (V2.similarityScore target said).charSim ≤ 1) := by
  constructor
  · intro hA hB
    have hAB : ¬(V1.normalizeText target = [] ∨ V1.normalizeText said = []) := by
      rintro (h | h)
      · exact hA h
      · exact hB h
    have hm : max (V1.normalizeText target).length (V1.normalizeText said).length ≠ 0 := by
      have : (V1.normalizeText target).length ≠ 0 := fun h => hA (List.length_eq_zero.mp h)
      omega
    simp only [V1.similarityScore, if_neg hAB, if_pos hm]
    exact ⟨by trivial, (charSim_bounds hA).1, (charSim_bounds hA).2⟩
  · intro hA hB
    have hAB : ¬(V2.normalizeText target = [] ∨ V2.normalizeText said = []) := by
      rintro (h | h)
      · exact hA h
      · exact hB h
    simp only [V2.similarityScore, if_neg hAB]
    exact ⟨by trivial, (charSim_bounds hA).1, (charSim_bounds hA).2⟩

/-- C3 witness: the amended statement at the concrete pair ("a", "b"),
whose normalizations are both non-empty. -/
theorem C3_witness :
    (0 ≤ (V1.similarityScore [97] [98]).charSim ∧
      (V1.similarityScore [97] [98]).charSim ≤ 1) ∧
    (0 ≤ (V2.similarityScore [97] [98]).charSim ∧
      (V2.similarityScore [97] [98]).charSim ≤ 1) := by
  have h1 := (C3_charSim_formula_and_bounds [97] [98]).1 (by decide) (by decide)
  have h2 := (C3_charSim_formula_and_bounds [97] [98]).2 (by decide) (by decide)
  exact ⟨⟨h1.2.1, h1.2.2⟩, ⟨h2.2.1, h2.2.2⟩⟩

/-- C3 counterexample: for target "a" and said "b" both normalizations are
non-empty, yet `charSim = 0` in both variants — `charSim` is not strictly
positive, refuting the claimed range (0,1]. -/
theorem C3_counterexample :
    V1.normalizeText [97] ≠ [] ∧ V1.normalizeText [98] ≠ [] ∧
    V2.normalizeText [97] ≠ [] ∧ V2.normalizeText [98] ≠ [] ∧
    (V1.similarityScore [97] [98]).charSim = 0 ∧
    (V2.similarityScore [97] [98]).charSim = 0 := by
  refine ⟨by decide, by decide, by decide, by decide, ?_, ?_⟩
  · have hA : V1.normalizeText [97] = [97] := by decide
    have hB : V1.normalizeText [98] = [98] := by decide
    have hd : levenshtein [97] [98] = 1 := by decide
    have hsA : splitSp [97] = [[97]] := by decide
    have hsB : splitSp [98] = [[98]] := by decide
    simp +decide only [V1.similarityScore, hA, hB, hd, hsA, hsB]
    norm_num
  · have hA : V2.normalizeText [97] = [97] := by decide
    have hB : V2.normalizeText [98] = [98] := by decide
    have hd : levenshtein [97] [98] = 1 := by decide
    have hsA : splitSp [97] = [[97]] := by decide
    have hsB : splitSp [98] = [[98]] := by decide
    simp +decide only [V2.similarityScore, hA, hB, hd, hsA, hsB]
    norm_num

/-- C4 (amended): `levenshtein` computes the classic unit-cost
insert/delete/substitute edit distance — it is the least number of
single-character edits — but over sequences of UTF-16 code units, not code
points: a code point outside the BMP (here U+1D11E, encoded as a surrogate
pair) counts as two units. -/
theorem C4_edit_distance_over_code_units :
    (∀ a b : List Nat, IsLeast {n | Path a b n} (levenshtein a b)) ∧
    levenshtein (utf16EncodeCP 0x1D11E) [] = 2 :=
  ⟨levenshtein_isLeast, by decide⟩

/-- C4 witness: the least-edit-script characterization applied at a
concrete pair: a single substitution bounds `levenshtein "a" "b"` by 1. -/
theorem C4_witness :
    levenshtein (utf16EncodeCP 0x1D11E) [] = 2 ∧ levenshtein [97] [98] ≤ 1 :=
  ⟨C4_edit_distance_over_code_units.2,
   (C4_edit_distance_over_code_units.1 [97] [98]).2 (path_single (Step.sub 97 98 []))⟩

/-- C4 counterexample: the non-BMP code point U+1D11E is stored as the
surrogate pair ⟨0xD834, 0xDD1E⟩, and `levenshtein` counts it as two units,
not one. -/
theorem C4_counterexample :
    utf16EncodeCP 0x1D11E = [0xD834, 0xDD1E] ∧
    levenshtein (utf16EncodeCP 0x1D11E) [] = 2 ∧ (2 : Nat) ≠ 1 :=
  ⟨by decide, by decide, by decide⟩

/-- C5 (amended): on ("Café", "cafe") the NFKD variant folds case and
strips the diacritic, giving `charSim = 1`; the NFC variant folds case but
does not strip the diacritic, giving `charSim = 3/4`. -/
theorem C5_case_accent :
    (V2.similarityScore [67, 97, 102, 233] [99, 97, 102, 101]).charSim = 1 ∧
    (V1.similarityScore [67, 97, 102, 233] [99, 97, 102, 101]).charSim = 3/4 := by
  constructor
  · have hA : V2.normalizeText [67, 97, 102, 233] = [99, 97, 102, 101] := by decide
    have hB : V2.normalizeText [99, 97, 102, 101] = [99, 97, 102, 101] := by decide
    have hd : levenshtein [99, 97, 102, 101] [99, 97, 102, 101] = 0 := by decide
    have hs : splitSp [99, 97, 102, 101] = [[99, 97, 102, 101]] := by decide
    simp +decide only [V2.similarityScore, hA, hB, hd, hs]
    norm_num
  · have hA : V1.normalizeText [67, 97, 102, 233] = [99, 97, 102, 233] := by decide
    have hB : V1.normalizeText [99, 97, 102, 101] = [99, 97, 102, 101] := by decide
    have hd : levenshtein [99, 97, 102, 233] [99, 97, 102, 101] = 1 := by decide
    have hsA : splitSp [99, 97, 102, 233] = [[99, 97, 102, 233]] := by decide
    have hsB : splitSp [99, 97, 102, 101] = [[99, 97, 102, 101]] := by decide
    simp +decide only [V1.similarityScore, hA, hB, hd, hsA, hsB]
    norm_num

/-- C5 counterexample: the first (NFC) variant of `similarityScore` does
not return `charSim = 1` on ("Café", "cafe"). -/
theorem C5_counterexample :
    (V1.similarityScore [67, 97, 102, 233] [99, 97, 102, 101]).charSim ≠ 1 := by
  have hA : V1.normalizeText [67, 97, 102, 233] = [99, 97, 102, 233] := by decide
  have hB : V1.normalizeText [99, 97, 102, 101] = [99, 97, 102, 101] := by decide
  have hd : levenshtein [99, 97, 102, 233] [99, 97, 102, 101] = 1 := by decide
  have hsA : splitSp [99, 97, 102, 233] = [[99, 97, 102, 233]] := by decide
  have hsB : splitSp [99, 97, 102, 101] = [[99, 97, 102, 101]] := by decide
  simp +decide only [V1.similarityScore, hA, hB, hd, hsA, hsB]
  norm_num

/-- C6: comparing any input against itself yields a perfect score: for
every string whose normalization is non-empty, `similarityScore x x`
returns `score = 1` and `charSim = 1` (both variants). -/
theorem C6_self_comparison (x : List Nat) :
    (V1.normalizeText x ≠ [] →
      (V1.similarityScore x x).score = 1 ∧ (V1.similarityScore x x).charSim = 1) ∧
    (V2.normalizeText x ≠ [] →
      (V2.similarityScore x x).score = 1 ∧ (V2.similarityScore x x).charSim = 1) := by
  constructor
  · intro h
    have hAB : ¬(V1.normalizeText x = [] ∨ V1.normalizeText x = []) := by simp [h]
    have hm : max (V1.normalizeText x).length (V1.normalizeText x).length ≠ 0 := by
      have : (V1.normalizeText x).length ≠ 0 := fun hh => h (List.length_eq_zero.mp hh)
      omega
    have hlen : (splitSp (V1.normalizeText x)).length ≠ 0 := by
      intro hh
      exact splitSp_ne_nil (V1.normalizeText x) (List.length_eq_zero.mp hh)
    have hcount : (splitSp (V1.normalizeText x)).countP
        (fun w => (splitSp (V1.normalizeText x)).contains w) =
        (splitSp (V1.normalizeText x)).length :=
      List.countP_eq_length.mpr (fun a ha => List.elem_eq_true_of_mem ha)
    have hds : (((splitSp (V1.normalizeText x)).length : Nat) : ℚ) /
        (((splitSp (V1.normalizeText x)).length : Nat) : ℚ) = 1 :=
      div_self (by exact_mod_cast hlen)
    simp only [V1.similarityScore, if_neg hAB, levenshtein_self, if_pos hm, hcount,
      if_pos hlen, hds, Nat.cast_zero, zero_div, sub_zero]
    norm_num
  · intro h
    have hAB : ¬(V2.normalizeText x = [] ∨ V2.normalizeText x = []) := by simp [h]
    have hlen : (splitSp (V2.normalizeText x)).length ≠ 0 := by
      intro hh
      exact splitSp_ne_nil (V2.normalizeText x) (List.length_eq_zero.mp hh)
    have hcount : (splitSp (V2.normalizeText x)).countP
        (fun w => (splitSp (V2.normalizeText x)).contains w) =
        (splitSp (V2.normalizeText x)).length :=
      List.countP_eq_length.mpr (fun a ha => List.elem_eq_true_of_mem ha)
    have hds : (((splitSp (V2.normalizeText x)).length : Nat) : ℚ) /
        (((splitSp (V2.normalizeText x)).length : Nat) : ℚ) = 1 :=
      div_self (by exact_mod_cast hlen)
    simp only [V2.similarityScore, if_neg hAB, levenshtein_self, hcount,
      if_pos hlen, hds, Nat.cast_zero, zero_div, sub_zero]
    norm_num

/-- C6 witness: the perfect self-comparison at the concrete input "ab". -/
theorem C6_witness :
    ((V1.similarityScore [97, 98] [97, 98]).score = 1 ∧
      (V1.similarityScore [97, 98] [97, 98]).charSim = 1) ∧
    ((V2.similarityScore [97, 98] [97, 98]).score = 1 ∧
      (V2.similarityScore [97, 98] [97, 98]).charSim = 1) :=
  ⟨(C6_self_comparison [97, 98]).1 (by decide),
   (C6_self_comparison [97, 98]).2 (by decide)⟩

/-- C7: `levenshtein` satisfies the triangle inequality, vanishes on equal
arguments, and is symmetric. -/
theorem C7_metric_properties :
    (∀ a b c : List Nat, levenshtein a c ≤ levenshtein a b + levenshtein b c) ∧
    (∀ s : List Nat, levenshtein s s = 0) ∧
    (∀ a b : List Nat, levenshtein a b = levenshtein b a) :=
  ⟨levenshtein_triangle, levenshtein_self, levenshtein_symm⟩

/-- C8 (amended): both variants map the empty string to the empty string,
and the NFKD-variant `normalizeText` is idempotent on strings of Basic
Latin and Latin-1 code units; neither variant is idempotent on all
strings (see the counterexample: the NFC variant fails on "e’́", and the
NFKD variant fails on "ϒ", whose compatibility decomposition is an
uppercase letter). -/
theorem C8_normalize_idem :
    (∀ s : List Nat, (∀ c ∈ s, c < 256) →
      V2.normalizeText (V2.normalizeText s) = V2.normalizeText s) ∧
    V1.normalizeText [] = [] ∧ V2.normalizeText [] = [] :=
  ⟨V2_normalizeText_idem, rfl, rfl⟩

/-- C8 witness: idempotence of the NFKD variant at the concrete Latin-1
input " Café  !" (exercising case folding, decomposition, punctuation
removal, whitespace collapsing and trimming). -/
theorem C8_witness :
    V2.normalizeText (V2.normalizeText [32, 67, 97, 102, 233, 32, 32, 33]) =
      V2.normalizeText [32, 67, 97, 102, 233, 32, 32, 33] :=
  C8_normalize_idem.1 [32, 67, 97, 102, 233, 32, 32, 33] (by decide)

/-- C8 counterexample: neither variant of `normalizeText` is idempotent.
The NFC variant fails on "e’́" (e, RIGHT SINGLE QUOTATION MARK, COMBINING
ACUTE ACCENT): the first pass removes the punctuation mark, leaving the
combining accent adjacent to the base letter, and the second pass's NFC
composes them into "é".  The NFKD variant fails on "ϒ" (GREEK UPSILON
WITH HOOK SYMBOL, U+03D2): it has no lowercase mapping, but NFKD
decompatibilizes it to the uppercase "Υ" (U+03A5), which only the second
pass lowercases to "υ" (U+03C5). -/
theorem C8_counterexample :
    V1.normalizeText (V1.normalizeText [101, 8217, 769]) ≠
      V1.normalizeText [101, 8217, 769] ∧
    V1.normalizeText [101, 8217, 769] = [101, 769] ∧
    V1.normalizeText [101, 769] = [233] ∧
    V2.normalizeText (V2.normalizeText [978]) ≠ V2.normalizeText [978] ∧
    V2.normalizeText [978] = [933] ∧
    V2.normalizeText [933] = [965] :=
  ⟨by decide, by decide, by decide, by decide, by decide, by decide⟩

/-- C9: in every reachable session state the number of recorded attempts
never exceeds the cap of 6; once the attempt counter has reached the cap,
the only enabled transition is the catalog advance (`newTwister`) — in
particular no further attempt can be recorded — while the maximum score is
computed from the (complete) `scores` list without changing state. -/
theorem C9_attempt_cap (s : Session) (h : Reachable s) :
    s.scores.length ≤ maxAttempts ∧
    (maxAttempts ≤ s.attempt → ∀ s', SessionStep s s' →
      s' = ⟨(s.twisterIndex + 1) % SAMPLE_TWISTERS_text.length, 0, [],
        s.recording⟩) := by
  have hinv := reachable_inv h
  refine ⟨?_, fun hcap s' hst => capped_step hinv hcap hst⟩
  have h1 := hinv.1
  have h2 := hinv.2.1
  omega

/-- A concrete session that has reached the attempt cap: six recognition
results (empty transcripts) on the first twister. -/
def cappedSession : Session :=
  ⟨0, 6,
    [mkAttemptRec 1 (currentText initSession) [],
     mkAttemptRec 2 (currentText initSession) [],
     mkAttemptRec 3 (currentText initSession) [],
     mkAttemptRec 4 (currentText initSession) [],
     mkAttemptRec 5 (currentText initSession) [],
     mkAttemptRec 6 (currentText initSession) []], false⟩

theorem cappedSession_reachable : Reachable cappedSession := by
  have r0 : Reachable initSession := Relation.ReflTransGen.refl
  have r1 : Reachable ⟨0, 0, [], true⟩ :=
    r0.tail (SessionStep.start initSession (by decide) rfl)
  have r2 : Reachable ⟨0, 1,
      [mkAttemptRec 1 (currentText initSession) []], false⟩ :=
    r1.tail (SessionStep.result ⟨0, 0, [], true⟩ [] rfl)
  have r3 : Reachable ⟨0, 1,
      [mkAttemptRec 1 (currentText initSession) []], true⟩ :=
    r2.tail (SessionStep.start _ (by decide) rfl)
  have r4 : Reachable ⟨0, 2,
      [mkAttemptRec 1 (currentText initSession) [],
       mkAttemptRec 2 (currentText initSession) []], false⟩ :=
    r3.tail (SessionStep.result _ [] rfl)
  have r5 : Reachable ⟨0, 2,
      [mkAttemptRec 1 (currentText initSession) [],
       mkAttemptRec 2 (currentText initSession) []], true⟩ :=
    r4.tail (SessionStep.start _ (by decide) rfl)
  have r6 : Reachable ⟨0, 3,
      [mkAttemptRec 1 (currentText initSession) [],
       mkAttemptRec 2 (currentText initSession) [],
       mkAttemptRec 3 (currentText initSession) []], false⟩ :=
    r5.tail (SessionStep.result _ [] rfl)
  have r7 : Reachable ⟨0, 3,
      [mkAttemptRec 1 (currentText initSession) [],
       mkAttemptRec 2 (currentText initSession) [],
       mkAttemptRec 3 (currentText initSession) []], true⟩ :=
    r6.tail (SessionStep.start _ (by decide) rfl)
  have r8 : Reachable ⟨0, 4,
      [mkAttemptRec 1 (currentText initSession) [],
       mkAttemptRec 2 (currentText initSession) [],
       mkAttemptRec 3 (currentText initSession) [],
       mkAttemptRec 4 (currentText initSession) []], false⟩ :=
    r7.tail (SessionStep.result _ [] rfl)
  have r9 : Reachable ⟨0, 4,
      [mkAttemptRec 1 (currentText initSession) [],
       mkAttemptRec 2 (currentText initSession) [],
       mkAttemptRec 3 (currentText initSession) [],
       mkAttemptRec 4 (currentText initSession) []], true⟩ :=
    r8.tail (SessionStep.start _ (by decide) rfl)
  have r10 : Reachable ⟨0, 5,
      [mkAttemptRec 1 (currentText initSession) [],
       mkAttemptRec 2 (currentText initSession) [],
       mkAttemptRec 3 (currentText initSession) [],
       mkAttemptRec 4 (currentText initSession) [],
       mkAttemptRec 5 (currentText initSession) []], false⟩ :=
    r9.tail (SessionStep.result _ [] rfl)
  have r11 : Reachable ⟨0, 5,
      [mkAttemptRec 1 (currentText initSession) [],
       mkAttemptRec 2 (currentText initSession) [],
       mkAttemptRec 3 (currentText initSession) [],
       mkAttemptRec 4 (currentText initSession) [],
       mkAttemptRec 5 (currentText initSession) []], true⟩ :=
    r10.tail (SessionStep.start _ (by decide) rfl)
  exact r11.tail (SessionStep.result _ [] rfl)

/-- C9 witness: the cap behaviour at the concrete reachable state
`cappedSession` (six attempts recorded). -/
theorem C9_witness :
    cappedSession.scores.length ≤ maxAttempts ∧
    (maxAttempts ≤ cappedSession.attempt → ∀ s', SessionStep cappedSession s' →
      s' = ⟨(cappedSession.twisterIndex + 1) % SAMPLE_TWISTERS_text.length, 0, [],
        cappedSession.recording⟩) :=
  C9_attempt_cap cappedSession cappedSession_reachable

/-- C10: under the precondition that both normalizations are non-empty,
every division inside `similarityScore` is by a positive number:
`maxLen > 0`, and splitting the normalized `said` on spaces yields at
least one word, so the `ba.length == 0` fallback branch is unreachable
(both variants). -/
theorem C10_divisors_positive (target said : List Nat) :
    (V1.normalizeText target ≠ [] → V1.normalizeText said ≠ [] →
      0 < max (V1.normalizeText target).length (V1.normalizeText said).length ∧
      (splitSp (V1.normalizeText said)).length ≠ 0) ∧
    (V2.normalizeText target ≠ [] → V2.normalizeText said ≠ [] →
      0 < max (V2.normalizeText target).length (V2.normalizeText said).length ∧
      (splitSp (V2.normalizeText said)).length ≠ 0) := by
  constructor
  · intro hA _
    constructor
    · have : (V1.normalizeText target).length ≠ 0 :=
        fun h => hA (List.length_eq_zero.mp h)
      omega
    · intro h
      exact splitSp_ne_nil (V1.normalizeText said) (List.length_eq_zero.mp h)
  · intro hA _
    constructor
    · have : (V2.normalizeText target).length ≠ 0 :=
        fun h => hA (List.length_eq_zero.mp h)
      omega
    · intro h
      exact splitSp_ne_nil (V2.normalizeText said) (List.length_eq_zero.mp h)

/-- C10 witness: positive divisors at the concrete pair ("ab", "cd"). -/
theorem C10_witness :
    (0 < max (V1.normalizeText [97, 98]).length (V1.normalizeText [99, 100]).length ∧
      (splitSp (V1.normalizeText [99, 100])).length ≠ 0) ∧
    (0 < max (V2.normalizeText [97, 98]).length (V2.normalizeText [99, 100]).length ∧
      (splitSp (V2.normalizeText [99, 100])).length ≠ 0) :=
  ⟨(C10_divisors_positive [97, 98] [99, 100]).1 (by decide) (by decide),
   (C10_divisors_positive [97, 98] [99, 100]).2 (by decide) (by decide)⟩

end TTX
